import Mathlib

/-!
Verification of the `WindowFunnelState` aggregation core from
`be/src/exprs/agg/window_funnel.h`.

The state holds a list of `(timestamp, event_level)` pairs, a window size,
the funnel step count (`events_size`) and an incremental `sorted` flag.
Timestamps are modelled as `Int` (the C++ code stores `int64_t`-valued
timestamps) and event levels as `Nat` (the C++ `uint8_t`; where the code
performs a `uint8_t` cast of an `int64_t` we model it as `% 256`).
All C++ sorts in this file use the same lexicographic order on the whole
pair (`std::stable_sort` with the default `operator<`, `std::sort` /
`std::stable_sort` with `ComparePairFirst`, and `std::inplace_merge` with
the default `operator<` all compare the full pair lexicographically), so
they are all modelled with `List.mergeSort` / `List.merge` over `pairLe`.
-/

namespace WindowFunnel

/-- One observation: `(timestamp, event position)`, the C++ `TimestampEvent`. -/
abbrev TimestampEvent := Int × Nat

/-- The lexicographic "less or equal" on pairs used by every sort/merge in the
source (`ComparePairFirst` and the default pair `operator<` agree on it). -/
def pairLe (a b : TimestampEvent) : Bool :=
  decide (a.1 < b.1 ∨ (a.1 = b.1 ∧ a.2 ≤ b.2))

/-- `pairLe` as a proposition. -/
def pairRel (a b : TimestampEvent) : Prop := pairLe a b = true

/-- Strict lexicographic order on pairs. -/
def pairLt (a b : TimestampEvent) : Prop :=
  a.1 < b.1 ∨ (a.1 = b.1 ∧ a.2 < b.2)

instance (a b : TimestampEvent) : Decidable (pairLt a b) := by
  unfold pairLt; infer_instance

instance : DecidableRel pairRel := fun a b =>
  inferInstanceAs (Decidable (pairLe a b = true))

/-- The per-group aggregation state of `window_funnel`. -/
structure WindowFunnelState where
  events_list : List TimestampEvent
  window_size : Int
  events_size : Nat
  sorted : Bool
deriving Repr, DecidableEq

/-- A fresh state for a group, as initialised by the driver: empty event
list, `sorted = true`, with the query-wide constants recorded. -/
def initState (N : Nat) (w : Int) : WindowFunnelState :=
  { events_list := [], window_size := w, events_size := N, sorted := true }

/-- `WindowFunnelState::update`: drop late `event_level = 0` placeholders,
maintain the `sorted` flag by comparing with the last appended pair, then
append. -/
def update (s : WindowFunnelState) (timestamp : Int) (event_level : Nat) :
    WindowFunnelState :=
  match s.events_list.getLast? with
  | none =>
      { s with events_list := s.events_list ++ [(timestamp, event_level)] }
  | some last =>
      if event_level = 0 then s
      else
        { s with events_list := s.events_list ++ [(timestamp, event_level)],
                 sorted :=
                   if s.sorted then
                     (if last.1 = timestamp then decide (last.2 ≤ event_level)
                      else decide (last.1 ≤ timestamp))
                   else s.sorted }

/-- The pair section of the wire format produced by
`serialize_to_array_column`: `t0, s0, t1, s1, ...`. -/
def encodePairs : List TimestampEvent → List Int
  | [] => []
  | p :: rest => p.1 :: (p.2 : Int) :: encodePairs rest

/-- `WindowFunnelState::serialize_to_array_column`: an empty state encodes to
nothing; otherwise `[events_size, sorted, t0, s0, t1, s1, ...]`. -/
def serialize_to_array (s : WindowFunnelState) : List Int :=
  if s.events_list.isEmpty then []
  else (s.events_size : Int) :: (if s.sorted then 1 else 0) ::
       encodePairs s.events_list

/-- The decode loop of `deserialize_and_merge`
(`for (i = 2; i < size - 1; i += 2)`): greedily read `(timestamp, event)`
pairs while at least two scalars remain; a dangling final scalar is never
read.  The event is narrowed through the C++ `uint8_t` cast. -/
def decodePairs : List Int → List TimestampEvent
  | t :: e :: rest => (t, (e % 256).toNat) :: decodePairs rest
  | _ => []

/-- Header field 0 of an encoding, through the `uint8_t` cast
(`events_size = (uint8_t)datum_array[0].get_int64()`). -/
def decodeEventsSize (arr : List Int) : Nat :=
  ((arr.getD 0 0) % 256).toNat

/-- Header field 1 of an encoding
(`bool other_sorted = (uint8_t)datum_array[1].get_int64()`). -/
def decodeSortedFlag (arr : List Int) : Bool :=
  decide ((arr.getD 1 0) % 256 ≠ 0)

/-- `WindowFunnelState::deserialize_and_merge`.  An empty encoding is a
no-op.  Otherwise the decoded remote pairs are appended; if both sides were
unsorted the whole list is re-sorted, else the unsorted side(s) are sorted
and the two runs are merged with a stable (left-biased) merge, mirroring
`std::inplace_merge`.  The local flag becomes `true` and `events_size` is
taken from the encoding; `window_size` comes from the query constant. -/
def deserialize_and_merge (w : Int) (s : WindowFunnelState) (arr : List Int) :
    WindowFunnelState :=
  if arr.isEmpty then s
  else
    { events_list :=
        if !s.sorted && !decodeSortedFlag arr then
          (s.events_list ++ decodePairs (arr.drop 2)).mergeSort pairLe
        else
          List.merge
            (if s.sorted then s.events_list
             else s.events_list.mergeSort pairLe)
            (if decodeSortedFlag arr then decodePairs (arr.drop 2)
             else (decodePairs (arr.drop 2)).mergeSort pairLe)
            pairLe,
      window_size := w,
      events_size := decodeEventsSize arr,
      sorted := true }

/-- The single-row encoding emitted by `convert_to_serialize_format`:
`[events_size, false, timestamp, event_level]`. -/
def convert_row_to_serialize_format (events_size : Nat) (tv : Int)
    (event_level : Nat) : List Int :=
  [(events_size : Int), 0, tv, (event_level : Int)]

/-- The scan loop of `get_event_level` over the sorted observations.
`Sum.inl n` is the early `return events_size`; `Sum.inr ts` is the final
`events_timestamp` vector; `none` models an out-of-range access to the
`events_timestamp` vector (the reads/writes at `event_idx - 1` and
`event_idx` in the source carry no bounds check of their own). -/
def scanLoop (N : Nat) (w : Int) : List Int → List TimestampEvent →
    Option (Nat ⊕ List Int)
  | ts, [] => some (Sum.inr ts)
  | ts, (timestamp, ev) :: rest =>
    if ev = 0 then scanLoop N w ts rest
    else if ev = 1 then
      if 0 < ts.length then scanLoop N w (ts.set 0 timestamp) rest else none
    else
      if h : ev - 2 < ts.length then
        if 0 ≤ ts[ev - 2] ∧ timestamp ≤ ts[ev - 2] + w then
          if ev - 1 < ts.length then
            if ev = N then some (Sum.inl N)
            else scanLoop N w (ts.set (ev - 1) ts[ev - 2]) rest
          else none
        else scanLoop N w ts rest
      else none

/-- The final backwards scan of `get_event_level`: the largest `event` with
`events_timestamp[event - 1] >= 0`, else `0`. -/
def lastReached (ts : List Int) : Nat → Nat
  | 0 => 0
  | e + 1 => if 0 ≤ ts.getD e (-1) then e + 1 else lastReached ts e

/-- `WindowFunnelState::get_event_level`: lazily sort if the flag is unset,
run the scan loop over a fresh `events_timestamp` vector of `events_size`
sentinels `-1`, and take either the early return or the backwards scan. -/
def get_event_level (s : WindowFunnelState) : Option Nat :=
  match scanLoop s.events_size s.window_size
      (List.replicate s.events_size (-1))
      (if s.sorted then s.events_list
       else s.events_list.mergeSort pairLe) with
  | none => none
  | some (Sum.inl n) => some n
  | some (Sum.inr ts) => some (lastReached ts ts.length)

/-- The observations with `event_level ≠ 0`; only these can influence the
result of `get_event_level` (level-0 rows are skipped by the scan loop). -/
def nzFilter (l : List TimestampEvent) : List TimestampEvent :=
  l.filter fun p => decide (p.2 ≠ 0)

/-- Canonical-form evaluator: evaluation of the sorted list of the nonzero
observations.  `get_event_level` of any honestly-flagged state coincides
with it, which is the key to the merge-commutativity properties. -/
def evalCanon (N : Nat) (w : Int) (l : List TimestampEvent) : Option Nat :=
  match scanLoop N w (List.replicate N (-1))
      ((nzFilter l).mergeSort pairLe) with
  | none => none
  | some (Sum.inl n) => some n
  | some (Sum.inr ts) => some (lastReached ts ts.length)

/-- A tree of combine steps over per-worker logs: a leaf is one worker's
sequence of `update` calls; a node merges the right subtree's serialized
state into the left subtree's state, exactly as the combining phase does. -/
inductive MergeTree where
  | leaf (obs : List TimestampEvent)
  | node (l r : MergeTree)

/-- One worker's local accumulation: fold `update` over its rows starting
from a fresh state. -/
def runLeaf (N : Nat) (w : Int) (obs : List TimestampEvent) :
    WindowFunnelState :=
  obs.foldl (fun s p => update s p.1 p.2) (initState N w)

/-- Execute a combine tree: leaves accumulate locally, nodes merge the
serialized right state into the left state. -/
def runTree (N : Nat) (w : Int) : MergeTree → WindowFunnelState
  | .leaf obs => runLeaf N w obs
  | .node l r =>
      deserialize_and_merge w (runTree N w l) (serialize_to_array (runTree N w r))

/-- All raw observations fed to a combine tree, leaf order. -/
def treeObs : MergeTree → List TimestampEvent
  | .leaf obs => obs
  | .node l r => treeObs l ++ treeObs r

/-- States reachable from a fresh log by `update` calls and by merging
honestly-flagged encodings (an encoding whose sorted flag decodes to `true`
really does carry a sorted pair section). -/
inductive Reachable (N : Nat) (w : Int) : WindowFunnelState → Prop where
  | init : Reachable N w (initState N w)
  | update {s} (t : Int) (e : Nat) : Reachable N w s →
      Reachable N w (WindowFunnel.update s t e)
  | merge {s} (arr : List Int) :
      (decodeSortedFlag arr = true →
        List.Sorted pairRel (decodePairs (arr.drop 2))) →
      Reachable N w s → Reachable N w (deserialize_and_merge w s arr)

/-- Invariant of the states of one query's aggregation with step count `N`
and window `w`: the constants are recorded, the sorted flag is honest, and
every stored event level fits the C++ `uint8_t` type. -/
def Good (N : Nat) (w : Int) (s : WindowFunnelState) : Prop :=
  s.events_size = N ∧ s.window_size = w ∧
  (s.sorted = true → List.Sorted pairRel s.events_list) ∧
  (∀ p ∈ s.events_list, p.2 < 256)

/-! ### The pair order is a linear order -/

theorem pairRel_iff {a b : TimestampEvent} :
    pairRel a b ↔ (a.1 < b.1 ∨ (a.1 = b.1 ∧ a.2 ≤ b.2)) := by
  simp [pairRel, pairLe]

theorem pairLe_refl (a : TimestampEvent) : pairLe a a = true := by
  simp [pairLe]

theorem pairLe_trans (a b c : TimestampEvent) :
    pairLe a b → pairLe b c → pairLe a c := by
  simp only [pairLe, decide_eq_true_eq]
  rintro (h₁ | ⟨h₁, h₁'⟩) (h₂ | ⟨h₂, h₂'⟩)
  · exact Or.inl (h₁.trans h₂)
  · exact Or.inl (h₂ ▸ h₁)
  · exact Or.inl (h₁ ▸ h₂)
  · exact Or.inr ⟨h₁.trans h₂, h₁'.trans h₂'⟩

theorem pairLe_total (a b : TimestampEvent) :
    pairLe a b || pairLe b a := by
  simp only [pairLe, Bool.or_eq_true, decide_eq_true_eq]
  rcases lt_trichotomy a.1 b.1 with h | h | h
  · exact Or.inl (Or.inl h)
  · rcases Nat.le_total a.2 b.2 with h' | h'
    · exact Or.inl (Or.inr ⟨h, h'⟩)
    · exact Or.inr (Or.inr ⟨h.symm, h'⟩)
  · exact Or.inr (Or.inl h)

theorem pairLe_antisymm {a b : TimestampEvent} :
    pairLe a b → pairLe b a → a = b := by
  simp only [pairLe, decide_eq_true_eq]
  intro h₁ h₂
  have ha : a.1 = b.1 := by
    rcases h₁ with h | ⟨h, _⟩ <;> rcases h₂ with h' | ⟨h', _⟩ <;> omega
  have hb : a.2 = b.2 := by
    rcases h₁ with h | ⟨h, h''⟩ <;> rcases h₂ with h' | ⟨h', h'''⟩ <;> omega
  exact Prod.ext ha hb

instance : IsAntisymm TimestampEvent pairRel :=
  ⟨fun _ _ h h' => pairLe_antisymm h h'⟩

theorem pairRel_total (a b : TimestampEvent) : pairRel a b ∨ pairRel b a := by
  have := pairLe_total a b
  rcases Bool.or_eq_true_iff.mp this with h | h
  · exact Or.inl h
  · exact Or.inr h

theorem not_pairRel_iff_pairLt {a b : TimestampEvent} :
    ¬ pairRel b a ↔ pairLt a b := by
  rw [pairRel_iff]
  constructor
  · intro h
    rcases lt_trichotomy a.1 b.1 with h' | h' | h'
    · exact Or.inl h'
    · exact Or.inr ⟨h', by omega⟩
    · exact absurd (Or.inl h') h
  · rintro (h' | ⟨h', h''⟩) <;> rintro (hc | ⟨hc, hc'⟩) <;> omega

/-! ### Sortedness and the canonical sorted list -/

theorem sorted_iff_pairwise {l : List TimestampEvent} :
    List.Sorted pairRel l ↔ l.Pairwise fun a b => pairLe a b = true :=
  Iff.rfl

theorem sorted_mergeSort_pair (l : List TimestampEvent) :
    List.Sorted pairRel (l.mergeSort pairLe) :=
  sorted_iff_pairwise.mpr (List.sorted_mergeSort pairLe_trans pairLe_total l)

theorem mergeSort_eq_of_perm {l₁ l₂ : List TimestampEvent}
    (h : l₁.Perm l₂) : l₁.mergeSort pairLe = l₂.mergeSort pairLe :=
  List.eq_of_perm_of_sorted
    (((List.mergeSort_perm l₁ pairLe).trans h).trans
      (List.mergeSort_perm l₂ pairLe).symm)
    (sorted_mergeSort_pair l₁) (sorted_mergeSort_pair l₂)

theorem mergeSort_eq_self {l : List TimestampEvent}
    (h : List.Sorted pairRel l) : l.mergeSort pairLe = l :=
  List.mergeSort_of_sorted (sorted_iff_pairwise.mp h)

theorem sorted_merge_pair {l₁ l₂ : List TimestampEvent}
    (h₁ : List.Sorted pairRel l₁) (h₂ : List.Sorted pairRel l₂) :
    List.Sorted pairRel (List.merge l₁ l₂ pairLe) :=
  sorted_iff_pairwise.mpr
    (List.sorted_merge pairLe_trans pairLe_total l₁ l₂
      (sorted_iff_pairwise.mp h₁) (sorted_iff_pairwise.mp h₂))

theorem nzFilter_sorted {l : List TimestampEvent}
    (h : List.Sorted pairRel l) : List.Sorted pairRel (nzFilter l) :=
  h.filter _

theorem nzFilter_append (l₁ l₂ : List TimestampEvent) :
    nzFilter (l₁ ++ l₂) = nzFilter l₁ ++ nzFilter l₂ := by
  simp [nzFilter]

/-! ### Scan-loop lemmas -/

theorem scanLoop_zero (N : Nat) (w t : Int) (ts : List Int)
    (rest : List TimestampEvent) :
    scanLoop N w ts ((t, 0) :: rest) = scanLoop N w ts rest := by
  simp [scanLoop]

theorem scanLoop_nzFilter (N : Nat) (w : Int) (l : List TimestampEvent) :
    ∀ ts : List Int, scanLoop N w ts (nzFilter l) = scanLoop N w ts l := by
  induction l with
  | nil => intro ts; rfl
  | cons p rest ih =>
    obtain ⟨t, e⟩ := p
    intro ts
    by_cases he : e = 0
    · subst he
      rw [show nzFilter ((t, 0) :: rest) = nzFilter rest by simp [nzFilter],
          scanLoop_zero]
      exact ih ts
    · rw [show nzFilter ((t, e) :: rest) = (t, e) :: nzFilter rest by
          simp [nzFilter, he]]
      simp only [scanLoop, if_neg he]
      by_cases h1 : e = 1
      · rw [if_pos h1, if_pos h1]
        by_cases h0 : 0 < ts.length
        · rw [if_pos h0, if_pos h0]; exact ih _
        · rw [if_neg h0, if_neg h0]
      · rw [if_neg h1, if_neg h1]
        by_cases hg : e - 2 < ts.length
        · rw [dif_pos hg, dif_pos hg]
          by_cases hc : 0 ≤ ts[e - 2] ∧ t ≤ ts[e - 2] + w
          · rw [if_pos hc, if_pos hc]
            by_cases hw : e - 1 < ts.length
            · rw [if_pos hw, if_pos hw]
              by_cases hN : e = N
              · rw [if_pos hN, if_pos hN]
              · rw [if_neg hN, if_neg hN]; exact ih _
            · rw [if_neg hw, if_neg hw]
          · rw [if_neg hc, if_neg hc]; exact ih _
        · rw [dif_neg hg, dif_neg hg]

theorem scanLoop_inl (N : Nat) (w : Int) (l : List TimestampEvent) :
    ∀ (ts : List Int) (n : Nat),
      scanLoop N w ts l = some (Sum.inl n) → n = N := by
  induction l with
  | nil => intro ts n h; simp [scanLoop] at h
  | cons p rest ih =>
    obtain ⟨t, e⟩ := p
    intro ts n h
    simp only [scanLoop] at h
    by_cases he : e = 0
    · exact ih ts n (by simpa [he] using h)
    · rw [if_neg he] at h
      by_cases h1 : e = 1
      · rw [if_pos h1] at h
        by_cases h0 : 0 < ts.length
        · rw [if_pos h0] at h; exact ih _ n h
        · rw [if_neg h0] at h; exact absurd h (by simp)
      · rw [if_neg h1] at h
        by_cases hg : e - 2 < ts.length
        · rw [dif_pos hg] at h
          by_cases hc : 0 ≤ ts[e - 2] ∧ t ≤ ts[e - 2] + w
          · rw [if_pos hc] at h
            by_cases hw : e - 1 < ts.length
            · rw [if_pos hw] at h
              by_cases hN : e = N
              · rw [if_pos hN] at h; simpa using h.symm
              · rw [if_neg hN] at h; exact ih _ n h
            · rw [if_neg hw] at h; exact absurd h (by simp)
          · rw [if_neg hc] at h; exact ih ts n h
        · rw [dif_neg hg] at h; exact absurd h (by simp)

theorem scanLoop_append_of_inl (N : Nat) (w : Int)
    (l₁ l₂ : List TimestampEvent) :
    ∀ (ts : List Int) (n : Nat), scanLoop N w ts l₁ = some (Sum.inl n) →
      scanLoop N w ts (l₁ ++ l₂) = some (Sum.inl n) := by
  induction l₁ with
  | nil => intro ts n h; simp [scanLoop] at h
  | cons p rest ih =>
    obtain ⟨t, e⟩ := p
    intro ts n h
    simp only [scanLoop, List.cons_append] at h ⊢
    by_cases he : e = 0
    · rw [if_pos he] at h ⊢; exact ih ts n h
    · rw [if_neg he] at h ⊢
      by_cases h1 : e = 1
      · rw [if_pos h1] at h ⊢
        by_cases h0 : 0 < ts.length
        · rw [if_pos h0] at h ⊢; exact ih _ n h
        · rw [if_neg h0] at h; exact absurd h (by simp)
      · rw [if_neg h1] at h ⊢
        by_cases hg : e - 2 < ts.length
        · rw [dif_pos hg] at h ⊢
          by_cases hc : 0 ≤ ts[e - 2] ∧ t ≤ ts[e - 2] + w
          · rw [if_pos hc] at h ⊢
            by_cases hw : e - 1 < ts.length
            · rw [if_pos hw] at h ⊢
              by_cases hN : e = N
              · rw [if_pos hN] at h ⊢; exact h
              · rw [if_neg hN] at h ⊢; exact ih _ n h
            · rw [if_neg hw] at h; exact absurd h (by simp)
          · rw [if_neg hc] at h ⊢; exact ih ts n h
        · rw [dif_neg hg] at h; exact absurd h (by simp)

theorem scanLoop_bounded (N : Nat) (w : Int) (l : List TimestampEvent) :
    ∀ ts : List Int, ts.length = N → (∀ p ∈ l, p.2 ≤ N) →
      scanLoop N w ts l = some (Sum.inl N) ∨
      ∃ ts', scanLoop N w ts l = some (Sum.inr ts') ∧ ts'.length = N := by
  induction l with
  | nil => intro ts hlen _; exact Or.inr ⟨ts, rfl, hlen⟩
  | cons p rest ih =>
    obtain ⟨t, e⟩ := p
    intro ts hlen hb
    have hbrest : ∀ p ∈ rest, p.2 ≤ N :=
      fun p hp => hb p (List.mem_cons_of_mem _ hp)
    have hbe : e ≤ N := hb (t, e) (List.mem_cons_self _ _)
    simp only [scanLoop]
    by_cases he : e = 0
    · rw [if_pos he]; exact ih ts hlen hbrest
    · rw [if_neg he]
      by_cases h1 : e = 1
      · rw [if_pos h1]
        have h0 : 0 < ts.length := by omega
        rw [if_pos h0]
        exact ih _ (by simpa using hlen) hbrest
      · rw [if_neg h1]
        have hg : e - 2 < ts.length := by omega
        rw [dif_pos hg]
        by_cases hc : 0 ≤ ts[e - 2] ∧ t ≤ ts[e - 2] + w
        · rw [if_pos hc]
          have hw : e - 1 < ts.length := by omega
          rw [if_pos hw]
          by_cases hN : e = N
          · rw [if_pos hN]; exact Or.inl rfl
          · rw [if_neg hN]; exact ih _ (by simpa using hlen) hbrest
        · rw [if_neg hc]; exact ih ts hlen hbrest

theorem lastReached_le (ts : List Int) : ∀ k : Nat, lastReached ts k ≤ k := by
  intro k
  induction k with
  | zero => simp [lastReached]
  | succ e ih =>
    simp only [lastReached]
    split
    · exact Nat.le_refl _
    · exact Nat.le_succ_of_le ih

/-! ### update lemmas -/

theorem sorted_rel_getLast {l : List TimestampEvent} {last a : TimestampEvent}
    (hs : List.Sorted pairRel l) (hl : l.getLast? = some last) (ha : a ∈ l) :
    pairRel a last := by
  induction l with
  | nil => simp at ha
  | cons b l ih =>
    rcases List.mem_cons.mp ha with rfl | ha'
    · cases l with
      | nil =>
        simp only [List.getLast?_singleton, Option.some.injEq] at hl
        subst hl
        exact pairLe_refl _
      | cons c l' =>
        have hmem : last ∈ c :: l' :=
          List.mem_of_getLast?_eq_some (by simpa using hl)
        exact (List.pairwise_cons.mp hs).1 last hmem
    · cases l with
      | nil => simp at ha'
      | cons c l' =>
        exact ih (List.pairwise_cons.mp hs).2 (by simpa using hl) ha'

theorem sorted_append_last {l : List TimestampEvent} {last x : TimestampEvent}
    (hs : List.Sorted pairRel l) (hl : l.getLast? = some last)
    (hx : pairRel last x) : List.Sorted pairRel (l ++ [x]) := by
  refine List.pairwise_append.mpr ⟨hs, List.pairwise_singleton _ _, ?_⟩
  intro a ha b hb
  rw [List.mem_singleton] at hb
  subst hb
  exact pairLe_trans _ _ _ (sorted_rel_getLast hs hl ha) hx

theorem pairLt_mk {t : Int} {e : Nat} {b : TimestampEvent} :
    pairLt (t, e) b ↔ (t < b.1 ∨ (t = b.1 ∧ e < b.2)) := Iff.rfl

theorem update_of_empty (s : WindowFunnelState) (t : Int) (e : Nat)
    (h : s.events_list = []) :
    update s t e = { s with events_list := [(t, e)] } := by
  unfold update
  split
  · rw [h]; simp
  · next last heq => rw [h] at heq; simp at heq

theorem update_dedup (s : WindowFunnelState) (t : Int)
    (h : s.events_list ≠ []) : update s t 0 = s := by
  unfold update
  split
  · next heq => rw [List.getLast?_eq_none_iff] at heq; contradiction
  · next last heq => rw [if_pos rfl]

theorem update_append {s : WindowFunnelState} {t : Int} {e : Nat}
    {last : TimestampEvent} (hl : s.events_list.getLast? = some last)
    (he : e ≠ 0) :
    (update s t e).events_list = s.events_list ++ [(t, e)] ∧
    (update s t e).window_size = s.window_size ∧
    (update s t e).events_size = s.events_size ∧
    (update s t e).sorted = (s.sorted && ! decide (pairLt (t, e) last)) := by
  unfold update
  split
  · next heq => rw [heq] at hl; simp at hl
  · next last' heq =>
    rw [heq, Option.some.injEq] at hl
    subst hl
    rw [if_neg he]
    refine ⟨rfl, rfl, rfl, ?_⟩
    by_cases hso : s.sorted = true
    · rw [if_pos hso, hso, Bool.true_and]
      by_cases ht : last'.1 = t
      · rw [if_pos ht, ← decide_not, decide_eq_decide, pairLt_mk]
        omega
      · rw [if_neg ht, ← decide_not, decide_eq_decide, pairLt_mk]
        omega
    · rw [if_neg hso]
      rw [Bool.not_eq_true] at hso
      rw [hso, Bool.false_and]

theorem update_nzFilter (s : WindowFunnelState) (t : Int) (e : Nat) :
    nzFilter (update s t e).events_list =
      nzFilter s.events_list ++ nzFilter [(t, e)] := by
  cases hl : s.events_list.getLast? with
  | none =>
    rw [List.getLast?_eq_none_iff] at hl
    rw [update_of_empty s t e hl, hl]
    rfl
  | some last =>
    by_cases he : e = 0
    · subst he
      have hne : s.events_list ≠ [] := by
        intro h; rw [h] at hl; simp at hl
      rw [update_dedup s t hne]
      simp [nzFilter]
    · rw [(update_append hl he).1, nzFilter_append]

theorem update_sorted_honest {s : WindowFunnelState}
    (hs : s.sorted = true → List.Sorted pairRel s.events_list)
    (t : Int) (e : Nat) :
    (update s t e).sorted = true →
      List.Sorted pairRel (update s t e).events_list := by
  cases hl : s.events_list.getLast? with
  | none =>
    rw [List.getLast?_eq_none_iff] at hl
    rw [update_of_empty s t e hl]
    intro _
    exact List.pairwise_singleton _ _
  | some last =>
    by_cases he : e = 0
    · subst he
      have hne : s.events_list ≠ [] := by
        intro h; rw [h] at hl; simp at hl
      rw [update_dedup s t hne]
      exact hs
    · obtain ⟨hev, -, -, hso⟩ := update_append hl he
      rw [hev, hso]
      intro h
      rw [Bool.and_eq_true] at h
      obtain ⟨h₁, h₂⟩ := h
      refine sorted_append_last (hs h₁) hl ?_
      rw [Bool.not_eq_eq_eq_not, Bool.not_true, decide_eq_false_iff_not] at h₂
      by_contra hn
      exact h₂ (not_pairRel_iff_pairLt.mp hn)

/-! ### Codec lemmas -/

theorem decodePairs_encodePairs (l : List TimestampEvent)
    (h : ∀ p ∈ l, p.2 < 256) : decodePairs (encodePairs l) = l := by
  induction l with
  | nil => rfl
  | cons p rest ih =>
    obtain ⟨t, e⟩ := p
    have he : e < 256 := h (t, e) (List.mem_cons_self _ _)
    have hrest := fun q hq => h q (List.mem_cons_of_mem _ hq)
    simp only [encodePairs, decodePairs, ih hrest]
    have : ((e : Int) % 256).toNat = e := by omega
    rw [this]

theorem serialize_nonempty {s : WindowFunnelState} (h : s.events_list ≠ []) :
    serialize_to_array s = (s.events_size : Int) ::
      (if s.sorted then 1 else 0) :: encodePairs s.events_list := by
  unfold serialize_to_array
  rw [if_neg (by simpa using h)]

theorem serialize_empty {s : WindowFunnelState} (h : s.events_list = []) :
    serialize_to_array s = [] := by
  unfold serialize_to_array
  rw [if_pos (by simpa using h)]

theorem decode_serialize {s : WindowFunnelState} (h : s.events_list ≠ [])
    (hN : s.events_size < 256) (hev : ∀ p ∈ s.events_list, p.2 < 256) :
    decodeEventsSize (serialize_to_array s) = s.events_size ∧
    decodeSortedFlag (serialize_to_array s) = s.sorted ∧
    decodePairs ((serialize_to_array s).drop 2) = s.events_list := by
  rw [serialize_nonempty h]
  refine ⟨?_, ?_, ?_⟩
  · show (((s.events_size : Int)) % 256).toNat = s.events_size
    omega
  · cases hs : s.sorted with
    | true => rfl
    | false => rfl
  · simpa using decodePairs_encodePairs _ hev

/-! ### Merge lemmas -/

theorem deserialize_and_merge_empty (w : Int) (s : WindowFunnelState) :
    deserialize_and_merge w s [] = s := rfl

theorem merge_fields {w : Int} {s : WindowFunnelState} {arr : List Int}
    (h : arr ≠ []) :
    (deserialize_and_merge w s arr).window_size = w ∧
    (deserialize_and_merge w s arr).events_size = decodeEventsSize arr ∧
    (deserialize_and_merge w s arr).sorted = true := by
  unfold deserialize_and_merge
  rw [if_neg (by simpa using h)]
  exact ⟨rfl, rfl, rfl⟩

theorem merge_events_list {w : Int} {s : WindowFunnelState} {arr : List Int}
    (h : arr ≠ []) :
    (deserialize_and_merge w s arr).events_list =
      if !s.sorted && !decodeSortedFlag arr then
        (s.events_list ++ decodePairs (arr.drop 2)).mergeSort pairLe
      else
        List.merge
          (if s.sorted then s.events_list
           else s.events_list.mergeSort pairLe)
          (if decodeSortedFlag arr then decodePairs (arr.drop 2)
           else (decodePairs (arr.drop 2)).mergeSort pairLe)
          pairLe := by
  unfold deserialize_and_merge
  rw [if_neg (by simpa using h)]

theorem merge_perm {w : Int} {s : WindowFunnelState} {arr : List Int}
    (h : arr ≠ []) :
    (deserialize_and_merge w s arr).events_list.Perm
      (s.events_list ++ decodePairs (arr.drop 2)) := by
  rw [merge_events_list h]
  by_cases hb : (!s.sorted && !decodeSortedFlag arr) = true
  · rw [if_pos hb]
    exact List.mergeSort_perm _ _
  · rw [if_neg hb]
    refine (List.merge_perm_append pairLe).trans (List.Perm.append ?_ ?_)
    · by_cases hs : s.sorted = true
      · rw [if_pos hs]
      · rw [if_neg hs]
        exact List.mergeSort_perm _ _
    · by_cases ho : decodeSortedFlag arr = true
      · rw [if_pos ho]
      · rw [if_neg ho]
        exact List.mergeSort_perm _ _

theorem merge_sorted_events {w : Int} {s : WindowFunnelState}
    {arr : List Int} (h : arr ≠ [])
    (hloc : s.sorted = true → List.Sorted pairRel s.events_list)
    (hrem : decodeSortedFlag arr = true →
      List.Sorted pairRel (decodePairs (arr.drop 2))) :
    List.Sorted pairRel (deserialize_and_merge w s arr).events_list := by
  rw [merge_events_list h]
  by_cases hb : (!s.sorted && !decodeSortedFlag arr) = true
  · rw [if_pos hb]
    exact sorted_mergeSort_pair _
  · rw [if_neg hb]
    apply sorted_merge_pair
    · by_cases hs : s.sorted = true
      · rw [if_pos hs]; exact hloc hs
      · rw [if_neg hs]; exact sorted_mergeSort_pair _
    · by_cases ho : decodeSortedFlag arr = true
      · rw [if_pos ho]; exact hrem ho
      · rw [if_neg ho]; exact sorted_mergeSort_pair _

/-! ### Canonical evaluation -/

theorem get_event_level_eq_evalCanon {s : WindowFunnelState}
    (hs : s.sorted = true → List.Sorted pairRel s.events_list) :
    get_event_level s = evalCanon s.events_size s.window_size s.events_list := by
  unfold get_event_level evalCanon
  by_cases hso : s.sorted = true
  · rw [if_pos hso]
    rw [mergeSort_eq_self (nzFilter_sorted (hs hso)), scanLoop_nzFilter]
  · rw [if_neg hso]
    have h1 : (nzFilter s.events_list).mergeSort pairLe
        = nzFilter (s.events_list.mergeSort pairLe) :=
      List.eq_of_perm_of_sorted
        ((List.mergeSort_perm _ _).trans
          ((List.mergeSort_perm s.events_list pairLe).symm.filter _))
        (sorted_mergeSort_pair _)
        (nzFilter_sorted (sorted_mergeSort_pair _))
    rw [h1, scanLoop_nzFilter]

theorem evalCanon_congr {N : Nat} {w : Int} {l₁ l₂ : List TimestampEvent}
    (h : (nzFilter l₁).Perm (nzFilter l₂)) :
    evalCanon N w l₁ = evalCanon N w l₂ := by
  unfold evalCanon
  rw [mergeSort_eq_of_perm h]

/-! ### The Good invariant through update, serialize and merge -/

theorem good_init (N : Nat) (w : Int) : Good N w (initState N w) :=
  ⟨rfl, rfl, fun _ => List.Pairwise.nil, by simp [initState]⟩

theorem good_update {N : Nat} {w : Int} {s : WindowFunnelState}
    (hg : Good N w s) (t : Int) (e : Nat) (he : e < 256) :
    Good N w (update s t e) := by
  obtain ⟨h1, h2, h3, h4⟩ := hg
  cases hl : s.events_list.getLast? with
  | none =>
    rw [List.getLast?_eq_none_iff] at hl
    rw [update_of_empty s t e hl]
    exact ⟨h1, h2, fun _ => List.pairwise_singleton _ _, by
      intro p hp; rw [List.mem_singleton] at hp; subst hp; exact he⟩
  | some last =>
    by_cases hez : e = 0
    · subst hez
      have hne : s.events_list ≠ [] := by
        intro hemp; rw [hemp] at hl; simp at hl
      rw [update_dedup s t hne]
      exact ⟨h1, h2, h3, h4⟩
    · obtain ⟨hev, hw, hsz, -⟩ := update_append hl hez
      refine ⟨hsz.trans h1, hw.trans h2, update_sorted_honest h3 t e, ?_⟩
      rw [hev]
      intro p hp
      rcases List.mem_append.mp hp with hp | hp
      · exact h4 p hp
      · rw [List.mem_singleton] at hp; subst hp; exact he

theorem good_merge_serialize {N : Nat} {w : Int} {s s' : WindowFunnelState}
    (hN : N < 256) (hg : Good N w s) (hg' : Good N w s') :
    Good N w (deserialize_and_merge w s (serialize_to_array s')) ∧
    (nzFilter (deserialize_and_merge w s (serialize_to_array s')).events_list).Perm
      (nzFilter s.events_list ++ nzFilter s'.events_list) := by
  by_cases hemp : s'.events_list = []
  · rw [serialize_empty hemp, deserialize_and_merge_empty, hemp]
    exact ⟨hg, by simp [nzFilter]⟩
  · have harr : serialize_to_array s' ≠ [] := by
      rw [serialize_nonempty hemp]; simp
    obtain ⟨hds, hdf, hdp⟩ :=
      decode_serialize hemp (hg'.1 ▸ hN) hg'.2.2.2
    have hperm := merge_perm (w := w) (s := s) harr
    rw [hdp] at hperm
    have hmemb : ∀ p ∈ (deserialize_and_merge w s
        (serialize_to_array s')).events_list, p.2 < 256 := by
      intro p hp
      rcases List.mem_append.mp (hperm.subset hp) with hp' | hp'
      · exact hg.2.2.2 p hp'
      · exact hg'.2.2.2 p hp'
    obtain ⟨hw, hsz, hso⟩ := merge_fields (w := w) (s := s) harr
    refine ⟨⟨hsz.trans (hds.trans hg'.1), hw, fun _ => ?_, hmemb⟩, ?_⟩
    · refine merge_sorted_events harr hg.2.2.1 ?_
      rw [hdf, hdp]
      exact hg'.2.2.1
    · have hf := hperm.filter fun p => decide (p.2 ≠ 0)
      rw [List.filter_append] at hf
      exact hf

theorem foldl_update_good {N : Nat} {w : Int} (obs : List TimestampEvent) :
    ∀ s : WindowFunnelState, Good N w s → (∀ p ∈ obs, p.2 < 256) →
      Good N w (obs.foldl (fun s p => update s p.1 p.2) s) ∧
      nzFilter (obs.foldl (fun s p => update s p.1 p.2) s).events_list
        = nzFilter s.events_list ++ nzFilter obs := by
  induction obs with
  | nil => intro s hg _; exact ⟨hg, by simp [nzFilter]⟩
  | cons p rest ih =>
    intro s hg hev
    obtain ⟨t, e⟩ := p
    simp only [List.foldl_cons]
    have he : e < 256 := hev (t, e) (List.mem_cons_self _ _)
    obtain ⟨hg', heq⟩ := ih (update s t e) (good_update hg t e he)
      (fun q hq => hev q (List.mem_cons_of_mem _ hq))
    refine ⟨hg', ?_⟩
    rw [heq, update_nzFilter,
        show ((t, e) :: rest) = [(t, e)] ++ rest from rfl,
        nzFilter_append, List.append_assoc]

theorem runLeaf_good {N : Nat} {w : Int} (obs : List TimestampEvent)
    (hev : ∀ p ∈ obs, p.2 < 256) :
    Good N w (runLeaf N w obs) ∧
    nzFilter (runLeaf N w obs).events_list = nzFilter obs := by
  obtain ⟨hg, heq⟩ := foldl_update_good obs (initState N w) (good_init N w) hev
  exact ⟨hg, by simpa [initState, nzFilter] using heq⟩

theorem runTree_good {N : Nat} {w : Int} (hN : N < 256) (tr : MergeTree)
    (hev : ∀ p ∈ treeObs tr, p.2 < 256) :
    Good N w (runTree N w tr) ∧
    (nzFilter (runTree N w tr).events_list).Perm (nzFilter (treeObs tr)) := by
  induction tr with
  | leaf obs =>
    obtain ⟨hg, heq⟩ := runLeaf_good (N := N) (w := w) obs hev
    refine ⟨hg, ?_⟩
    rw [show runTree N w (MergeTree.leaf obs) = runLeaf N w obs from rfl, heq]
    exact List.Perm.refl _
  | node l r ihl ihr =>
    have hevl : ∀ p ∈ treeObs l, p.2 < 256 := fun p hp =>
      hev p (by simp [treeObs, hp])
    have hevr : ∀ p ∈ treeObs r, p.2 < 256 := fun p hp =>
      hev p (by simp [treeObs, hp])
    obtain ⟨hgl, hpl⟩ := ihl hevl
    obtain ⟨hgr, hpr⟩ := ihr hevr
    obtain ⟨hgm, hpm⟩ := good_merge_serialize hN hgl hgr
    refine ⟨hgm, ?_⟩
    refine hpm.trans ((hpl.append hpr).trans ?_)
    rw [show treeObs (MergeTree.node l r) = treeObs l ++ treeObs r from rfl,
        nzFilter_append]

/-! ### Claim theorems -/

/-- C2: an observation at step `idx + 1` (`idx ≥ 1`) that passes the window
check extends the chain by propagating the chain's original step-1 start
timestamp (`reached[idx] = reached[idx-1]`), never the current
observation's timestamp; concretely, for `N = 3`, `windowSize = 3600`, the
sorted observations `(0,1), (1000,2), (5000,3)` evaluate to `2`. -/
theorem C2_chain_start_propagation :
    (∀ (N : Nat) (w t : Int) (e : Nat) (ts : List Int)
       (rest : List TimestampEvent), 2 ≤ e → (hg : e - 2 < ts.length) →
       0 ≤ ts[e - 2] → t ≤ ts[e - 2] + w → e - 1 < ts.length → e ≠ N →
       scanLoop N w ts ((t, e) :: rest)
         = scanLoop N w (ts.set (e - 1) ts[e - 2]) rest) ∧
    get_event_level ⟨[(0, 1), (1000, 2), (5000, 3)], 3600, 3, true⟩ = some 2 := by
  constructor
  · intro N w t e ts rest h2 hg hge hle hw hN
    simp only [scanLoop]
    rw [if_neg (by omega), if_neg (by omega), dif_pos hg, if_pos ⟨hge, hle⟩,
        if_pos hw, if_neg hN]
  · decide

/-- Witness for C2 at `N = 3`, `w = 3600`, observation `(1000, 2)` against
`reached = [0, -1, -1]`. -/
theorem C2_witness :
    scanLoop 3 3600 [0, -1, -1] [((1000 : Int), 2)]
      = scanLoop 3 3600 (List.set [0, -1, -1] 1 0) [] ∧
    get_event_level ⟨[(0, 1), (1000, 2), (5000, 3)], 3600, 3, true⟩ = some 2 :=
  ⟨C2_chain_start_propagation.1 3 3600 1000 2 [0, -1, -1] [] (by decide)
      (by decide) (by decide) (by decide) (by decide) (by decide),
   C2_chain_start_propagation.2⟩

theorem decodePairs_odd :
    ∀ tail : List Int, tail.length % 2 = 1 →
      decodePairs tail = decodePairs tail.dropLast
  | [], h => by simp at h
  | [x], _ => by simp [decodePairs]
  | t :: e :: rest, h => by
    have h' : rest.length % 2 = 1 := by
      simp only [List.length_cons] at h
      omega
    have hne : rest ≠ [] := by
      intro hr
      rw [hr] at h'
      simp at h'
    cases rest with
    | nil => exact absurd rfl hne
    | cons c tl =>
      simp only [decodePairs, List.dropLast_cons₂]
      rw [decodePairs_odd (c :: tl) h']

theorem deserialize_and_merge_congr {w : Int} {s : WindowFunnelState}
    {arr₁ arr₂ : List Int}
    (h₁ : arr₁.isEmpty = arr₂.isEmpty)
    (h₂ : decodeSortedFlag arr₁ = decodeSortedFlag arr₂)
    (h₃ : decodeEventsSize arr₁ = decodeEventsSize arr₂)
    (h₄ : decodePairs (arr₁.drop 2) = decodePairs (arr₂.drop 2)) :
    deserialize_and_merge w s arr₁ = deserialize_and_merge w s arr₂ := by
  unfold deserialize_and_merge
  rw [h₁, h₂, h₃, h₄]

/-- C3 counterexample: decoding the flat sequence `[3, 1, 5, 2, 7]`, whose
tail after the two header scalars is `[5, 2, 7]` of odd length, does not
fail: `deserialize_and_merge` produces an ordinary merged state holding
the pair `(5, 2)` (the dangling `7` is silently ignored).  There is no
error path in the code. -/
theorem C3_odd_tail_counterexample :
    deserialize_and_merge 3600 (initState 3 3600) [3, 1, 5, 2, 7]
      = ⟨[(5, 2)], 3600, 3, true⟩ := by
  unfold deserialize_and_merge
  rw [if_neg (by decide)]
  rw [show decodeSortedFlag [3, 1, 5, 2, 7] = true from rfl,
      show decodeEventsSize [3, 1, 5, 2, 7] = 3 from rfl,
      show decodePairs (List.drop 2 [3, 1, 5, 2, 7]) = [(5, 2)] from rfl]
  simp [initState, List.nil_merge]

/-- C3 amended: decoding a flat sequence whose tail after the two header
scalars has odd length does not fail; the final dangling scalar is
silently ignored (the decode loop runs `i < size - 1`), and merging
behaves exactly as on the sequence with the dangling scalar removed. -/
theorem C3_odd_tail_dropped (w : Int) (s : WindowFunnelState) :
    ∀ arr : List Int, (arr.drop 2).length % 2 = 1 →
      deserialize_and_merge w s arr = deserialize_and_merge w s arr.dropLast
  | [], h => by simp at h
  | [a], h => by simp at h
  | a :: b :: tail, h => by
    have htail : tail.length % 2 = 1 := by simpa using h
    have hne : tail ≠ [] := by
      intro ht
      rw [ht] at htail
      simp at htail
    have hdl : (a :: b :: tail).dropLast = a :: b :: tail.dropLast := by
      cases tail with
      | nil => exact absurd rfl hne
      | cons c tl => simp
    rw [hdl]
    refine deserialize_and_merge_congr rfl rfl rfl ?_
    simpa using decodePairs_odd tail htail

/-- Witness for C3's amended statement at the counterexample's input. -/
theorem C3_witness :
    deserialize_and_merge 3600 (initState 3 3600) [3, 1, 5, 2, 7]
      = deserialize_and_merge 3600 (initState 3 3600)
          (List.dropLast [3, 1, 5, 2, 7]) :=
  C3_odd_tail_dropped 3600 (initState 3 3600) [3, 1, 5, 2, 7] (by decide)

/-- C4: serializing a state and decoding the result reproduces the step
count, sorted flag and observation sequence exactly (the `uint8_t`-typed
fields are below 256 in the C++ state); an empty state serializes to the
empty sequence, and merging an empty encoding is a no-op that leaves the
local state unchanged. -/
theorem C4_roundtrip :
    (∀ s : WindowFunnelState, s.events_list ≠ [] → s.events_size < 256 →
      (∀ p ∈ s.events_list, p.2 < 256) →
      decodeEventsSize (serialize_to_array s) = s.events_size ∧
      decodeSortedFlag (serialize_to_array s) = s.sorted ∧
      decodePairs ((serialize_to_array s).drop 2) = s.events_list) ∧
    (∀ (N : Nat) (w : Int), serialize_to_array (initState N w) = []) ∧
    (∀ (w : Int) (s : WindowFunnelState), deserialize_and_merge w s [] = s) :=
  ⟨fun _ h hN hev => decode_serialize h hN hev,
   fun _ _ => rfl, fun _ _ => rfl⟩

/-- Witness for C4 at a one-observation state. -/
theorem C4_witness :
    decodeEventsSize (serialize_to_array ⟨[(5, 2)], 3600, 3, true⟩) = 3 ∧
    decodeSortedFlag (serialize_to_array ⟨[(5, 2)], 3600, 3, true⟩) = true ∧
    decodePairs ((serialize_to_array ⟨[(5, 2)], 3600, 3, true⟩).drop 2)
      = [(5, 2)] :=
  C4_roundtrip.1 ⟨[(5, 2)], 3600, 3, true⟩ (by decide) (by decide) (by decide)

/-- C5: merging a nonempty remote encoding into a local log (both sides'
sorted flags honest) yields a combined sequence that is a permutation of
local-then-remote observations, is non-decreasing under the lexicographic
pair order, and sets the local flag to true; when at least one side is
sorted, the result is exactly the stable left-biased merge of the two
runs, each run stable-sorted beforehand only if its side was unsorted. -/
theorem C5_merge_result (w : Int) (s : WindowFunnelState) (arr : List Int)
    (hne : arr ≠ [])
    (hloc : s.sorted = true → List.Sorted pairRel s.events_list)
    (hrem : decodeSortedFlag arr = true →
      List.Sorted pairRel (decodePairs (arr.drop 2))) :
    (deserialize_and_merge w s arr).events_list.Perm
      (s.events_list ++ decodePairs (arr.drop 2)) ∧
    List.Sorted pairRel (deserialize_and_merge w s arr).events_list ∧
    (deserialize_and_merge w s arr).sorted = true ∧
    (s.sorted = true ∨ decodeSortedFlag arr = true →
      (deserialize_and_merge w s arr).events_list =
        List.merge
          (if s.sorted then s.events_list
           else s.events_list.mergeSort pairLe)
          (if decodeSortedFlag arr then decodePairs (arr.drop 2)
           else (decodePairs (arr.drop 2)).mergeSort pairLe)
          pairLe) := by
  refine ⟨merge_perm hne, merge_sorted_events hne hloc hrem,
    (merge_fields hne).2.2, ?_⟩
  intro hside
  have hcond : ¬((!s.sorted && !decodeSortedFlag arr) = true) := by
    rcases hside with h | h <;> simp [h]
  rw [merge_events_list hne, if_neg hcond]

/-- Witness for C5: local `[(1,1),(3,1)]` (sorted), remote encoding
`[3, 1, 2, 1]` carrying `(2,1)` with an honest sorted flag. -/
theorem C5_witness :
    (deserialize_and_merge 3600 ⟨[(1, 1), (3, 1)], 3600, 3, true⟩
        [3, 1, 2, 1]).events_list.Perm
      ([(1, 1), (3, 1)] ++ decodePairs (List.drop 2 [3, 1, 2, 1])) ∧
    List.Sorted pairRel (deserialize_and_merge 3600
        ⟨[(1, 1), (3, 1)], 3600, 3, true⟩ [3, 1, 2, 1]).events_list ∧
    (deserialize_and_merge 3600 ⟨[(1, 1), (3, 1)], 3600, 3, true⟩
        [3, 1, 2, 1]).sorted = true ∧
    (true = true ∨ decodeSortedFlag [3, 1, 2, 1] = true →
      (deserialize_and_merge 3600 ⟨[(1, 1), (3, 1)], 3600, 3, true⟩
          [3, 1, 2, 1]).events_list =
        List.merge
          (if true then [(1, 1), (3, 1)]
           else List.mergeSort [(1, 1), (3, 1)] pairLe)
          (if decodeSortedFlag [3, 1, 2, 1]
           then decodePairs (List.drop 2 [3, 1, 2, 1])
           else (decodePairs (List.drop 2 [3, 1, 2, 1])).mergeSort pairLe)
          pairLe) :=
  C5_merge_result 3600 ⟨[(1, 1), (3, 1)], 3600, 3, true⟩ [3, 1, 2, 1]
    (by decide) (fun _ => by decide) (fun _ => by decide)

/-- C6: once the window check at step `N` passes, the scan returns `N`
immediately, so the result is `N` and is unchanged by truncating the
observations after the one that completed the chain. -/
theorem C6_short_circuit (N : Nat) (w : Int) (pre rest : List TimestampEvent)
    (h : scanLoop N w (List.replicate N (-1)) pre = some (Sum.inl N)) :
    get_event_level ⟨pre ++ rest, w, N, true⟩ = some N ∧
    get_event_level ⟨pre, w, N, true⟩ = some N := by
  have happ := scanLoop_append_of_inl N w pre rest _ _ h
  constructor
  · show (match scanLoop N w (List.replicate N (-1)) (pre ++ rest) with
      | none => none
      | some (Sum.inl n) => some n
      | some (Sum.inr ts) => some (lastReached ts ts.length)) = some N
    rw [happ]
  · show (match scanLoop N w (List.replicate N (-1)) pre with
      | none => none
      | some (Sum.inl n) => some n
      | some (Sum.inr ts) => some (lastReached ts ts.length)) = some N
    rw [h]

/-- Witness for C6: the spec's completing scenario, with a junk
observation appended after the completing one. -/
theorem C6_witness :
    get_event_level ⟨[(0, 1), (1000, 2), (2000, 3), (9999, 1)],
        3600, 3, true⟩ = some 3 ∧
    get_event_level ⟨[(0, 1), (1000, 2), (2000, 3)], 3600, 3, true⟩
      = some 3 :=
  C6_short_circuit 3 3600 [(0, 1), (1000, 2), (2000, 3)] [(9999, 1)]
    (by decide)

/-- C7: `update` is a no-op on a non-empty log when the step index is 0;
otherwise it appends the pair unconditionally, and the sorted flag drops
to false exactly when it was true and the new pair is strictly below the
last appended pair in the lexicographic order (once false it stays
false); on an empty log the pair is appended with the flag untouched.
Concretely, updating a log holding `(0,1)` with `(5,0)` changes nothing. -/
theorem C7_update_behavior :
    (∀ (s : WindowFunnelState) (t : Int), s.events_list ≠ [] →
      update s t 0 = s) ∧
    (∀ (s : WindowFunnelState) (t : Int) (e : Nat) (last : TimestampEvent),
      s.events_list.getLast? = some last → e ≠ 0 →
      (update s t e).events_list = s.events_list ++ [(t, e)] ∧
      (update s t e).sorted = (s.sorted && ! decide (pairLt (t, e) last))) ∧
    (∀ (s : WindowFunnelState) (t : Int) (e : Nat), s.events_list = [] →
      update s t e = { s with events_list := [(t, e)] }) ∧
    update ⟨[(0, 1)], 3600, 3, true⟩ 5 0 = ⟨[(0, 1)], 3600, 3, true⟩ :=
  ⟨fun s t h => update_dedup s t h,
   fun _ _ _ _ hl he => ⟨(update_append hl he).1, (update_append hl he).2.2.2⟩,
   fun s t e h => update_of_empty s t e h,
   update_dedup _ 5 (by decide)⟩

/-- Witness for C7: the dedup no-op and an appending update that breaks
sortedness. -/
theorem C7_witness :
    update ⟨[(2, 1)], 3600, 3, true⟩ 7 0 = ⟨[(2, 1)], 3600, 3, true⟩ ∧
    (update ⟨[(2, 1)], 3600, 3, true⟩ 1 1).events_list = [(2, 1), (1, 1)] ∧
    (update ⟨[(2, 1)], 3600, 3, true⟩ 1 1).sorted = false :=
  ⟨C7_update_behavior.1 ⟨[(2, 1)], 3600, 3, true⟩ 7 (by decide),
   (C7_update_behavior.2.1 ⟨[(2, 1)], 3600, 3, true⟩ 1 1 (2, 1)
      (by decide) (by decide)).1,
   (C7_update_behavior.2.1 ⟨[(2, 1)], 3600, 3, true⟩ 1 1 (2, 1)
      (by decide) (by decide)).2⟩

/-- C8: the sorted flag is conservative.  For every state reachable from a
fresh log by `update` calls and merges of honestly-flagged encodings,
`sorted = true` implies the observation list really is non-decreasing in
the lexicographic pair order.  The converse need not hold: the single-row
encoding path emits flag `false` for its (trivially sorted) one-pair
section. -/
theorem C8_sorted_conservative :
    (∀ (N : Nat) (w : Int) (s : WindowFunnelState), Reachable N w s →
      s.sorted = true → List.Sorted pairRel s.events_list) ∧
    (decodeSortedFlag (convert_row_to_serialize_format 3 7 1) = false ∧
      List.Sorted pairRel
        (decodePairs ((convert_row_to_serialize_format 3 7 1).drop 2))) := by
  constructor
  · intro N w s h
    induction h with
    | init => intro _; exact List.Pairwise.nil
    | update t e hr ih => exact update_sorted_honest ih t e
    | merge arr hhonest hr ih =>
      intro hso
      by_cases ha : arr = []
      · subst ha
        rw [deserialize_and_merge_empty] at hso ⊢
        exact ih hso
      · exact merge_sorted_events ha ih hhonest
  · exact ⟨rfl, by decide⟩

/-- Witness for C8 at the freshly initialised (empty, flagged sorted)
state. -/
theorem C8_witness : List.Sorted pairRel (initState 3 3600).events_list :=
  C8_sorted_conservative.1 3 3600 (initState 3 3600) Reachable.init rfl

/-- C9: the unreached sentinel is `-1` and "set" is tested as `≥ 0`, so a
chain whose step-1 observation has a negative timestamp is never counted
nor extended: a log holding only `(-1, 1)` evaluates to `0`, a step-1
observation always overwrites the chain start (even with a negative
timestamp), and a negative stored chain start blocks every extension. -/
theorem C9_negative_start :
    get_event_level ⟨[(-1, 1)], 3600, 1, true⟩ = some 0 ∧
    (∀ (N : Nat) (w t : Int) (ts : List Int) (rest : List TimestampEvent),
      0 < ts.length →
      scanLoop N w ts ((t, 1) :: rest) = scanLoop N w (ts.set 0 t) rest) ∧
    (∀ (N : Nat) (w t : Int) (e : Nat) (ts : List Int)
       (rest : List TimestampEvent), 2 ≤ e → (hg : e - 2 < ts.length) →
      ts[e - 2] < 0 →
      scanLoop N w ts ((t, e) :: rest) = scanLoop N w ts rest) := by
  refine ⟨by decide, ?_, ?_⟩
  · intro N w t ts rest h0
    simp only [scanLoop]
    rw [if_neg (by omega), if_pos trivial, if_pos h0]
  · intro N w t e ts rest h2 hg hneg
    simp only [scanLoop]
    rw [if_neg (by omega), if_neg (by omega), dif_pos hg,
        if_neg (fun hc => absurd hc.1 (by omega))]

/-- Witness for C9: a negative step-1 observation overwrites the chain
start, and a negative chain start blocks a step-2 extension. -/
theorem C9_witness :
    scanLoop 1 3600 [5] [((-7 : Int), 1)]
      = scanLoop 1 3600 (List.set [5] 0 (-7)) [] ∧
    scanLoop 3 3600 [-1, -1, -1] [((0 : Int), 2)]
      = scanLoop 3 3600 [-1, -1, -1] [] :=
  ⟨C9_negative_start.2.1 1 3600 (-7) [5] [] (by decide),
   C9_negative_start.2.2 3 3600 0 2 [-1, -1, -1] [] (by decide) (by decide)
     (by decide)⟩

/-- C10: when every stored step index is at most the step count, the
evaluator's accesses to the `events_timestamp` vector all stay in bounds
(the out-of-range branch of the embedding is never taken, so a value is
returned), and the returned value lies in `[0, stepCount]`. -/
theorem C10_eval_in_bounds (s : WindowFunnelState)
    (hb : ∀ p ∈ s.events_list, p.2 ≤ s.events_size) :
    ∃ r : Nat, get_event_level s = some r ∧ r ≤ s.events_size := by
  have hbl : ∀ p ∈ (if s.sorted then s.events_list
      else s.events_list.mergeSort pairLe), p.2 ≤ s.events_size := by
    intro p hp
    by_cases hso : s.sorted = true
    · rw [if_pos hso] at hp
      exact hb p hp
    · rw [if_neg hso] at hp
      exact hb p ((List.mergeSort_perm _ _).subset hp)
  have hlen : (List.replicate s.events_size (-1 : Int)).length
      = s.events_size := by simp
  rcases scanLoop_bounded s.events_size s.window_size _ _ hlen hbl with
    h | ⟨ts', h, hlen'⟩
  · refine ⟨s.events_size, ?_, Nat.le_refl _⟩
    show (match scanLoop s.events_size s.window_size
        (List.replicate s.events_size (-1))
        (if s.sorted then s.events_list
         else s.events_list.mergeSort pairLe) with
      | none => none
      | some (Sum.inl n) => some n
      | some (Sum.inr ts) => some (lastReached ts ts.length))
      = some s.events_size
    rw [h]
  · refine ⟨lastReached ts' ts'.length, ?_, ?_⟩
    · show (match scanLoop s.events_size s.window_size
          (List.replicate s.events_size (-1))
          (if s.sorted then s.events_list
           else s.events_list.mergeSort pairLe) with
        | none => none
        | some (Sum.inl n) => some n
        | some (Sum.inr ts) => some (lastReached ts ts.length))
        = some (lastReached ts' ts'.length)
      rw [h]
    · have := lastReached_le ts' ts'.length
      omega

/-- Witness for C10 at a two-observation state with step count 2. -/
theorem C10_witness :
    ∃ r : Nat, get_event_level ⟨[(0, 1), (1000, 2)], 3600, 2, true⟩ = some r ∧
      r ≤ 2 :=
  C10_eval_in_bounds ⟨[(0, 1), (1000, 2)], 3600, 2, true⟩ (by decide)

/-- C1: for a fixed step count and window, distributing a multiset of
observations over the leaves of an arbitrary combine tree — each leaf
updated row by row, each node merging the serialized right state into the
left state — evaluates to the same result as updating a single log with
every observation directly.  `N < 256` and step indices below 256 reflect
the `uint8_t` type of those fields in the C++ code. -/
theorem C1_partition_merge_invariance (N : Nat) (w : Int) (hN : N < 256)
    (tr : MergeTree) (all : List TimestampEvent)
    (hpart : (treeObs tr).Perm all) (hev : ∀ p ∈ all, p.2 < 256) :
    get_event_level (runTree N w tr) = get_event_level (runLeaf N w all) := by
  have hevt : ∀ p ∈ treeObs tr, p.2 < 256 := fun p hp =>
    hev p (hpart.subset hp)
  obtain ⟨hgt, hpt⟩ := runTree_good (w := w) hN tr hevt
  obtain ⟨hgd, hpd⟩ := runLeaf_good (N := N) (w := w) all hev
  rw [get_event_level_eq_evalCanon hgt.2.2.1,
      get_event_level_eq_evalCanon hgd.2.2.1,
      hgt.1, hgt.2.1, hgd.1, hgd.2.1]
  apply evalCanon_congr
  rw [hpd]
  exact hpt.trans (hpart.filter _)

/-- Witness for C1: two workers holding `[(0,1),(5000,3)]` and `[(1000,2)]`
merged as one tree, against the direct log of all three observations. -/
theorem C1_witness :
    get_event_level (runTree 3 3600
        (MergeTree.node (MergeTree.leaf [(0, 1), (5000, 3)])
          (MergeTree.leaf [(1000, 2)])))
      = get_event_level (runLeaf 3 3600 [(0, 1), (1000, 2), (5000, 3)]) :=
  C1_partition_merge_invariance 3 3600 (by decide)
    (MergeTree.node (MergeTree.leaf [(0, 1), (5000, 3)])
      (MergeTree.leaf [(1000, 2)]))
    [(0, 1), (1000, 2), (5000, 3)] (by decide) (by decide)

end WindowFunnel
